import Mathlib

/-!
Shallow embedding of the SPDK-backed persistence engine declared in
`include/derecho/persistent/detail/PersistThreads.hpp` of the derecho
repository, with proofs about its data model, geometry constants and the
operations described in the specification (metadata store, segment
allocator, address translator, atomic write coordinator).

Machine integers are embedded as `Nat` (unsigned) and `Int` (signed), with
explicit `% 2 ^ w` where width matters.
-/

namespace PersistThreads

/-! ### Geometry constants

These mirror the preprocessor constants of `PersistThreads.hpp`:
`SPDK_NUM_LOGS_SUPPORTED = 1 << 10`, `SPDK_SEGMENT_BIT = 26`,
`SPDK_SEGMENT_SIZE = 1 << 26`, `SPDK_LOG_ENTRY_ADDRESS_TABLE_LENGTH = 1 << 11`,
`SPDK_DATA_ADDRESS_TABLE_LENGTH = 3 * (1 << 12)`,
`SPDK_LOG_METADATA_SIZE = 1 << 15`,
`SPDK_LOG_ADDRESS_SPACE = (1 << (SPDK_SEGMENT_BIT + 11)) >> 6`,
`SPDK_NUM_SEGMENTS = SPDK_LOG_ADDRESS_SPACE / SPDK_NUM_LOGS_SUPPORTED - 256`.
All values fit far below `2 ^ 64`, so plain `Nat` arithmetic is exact. -/

def SPDK_NUM_LOGS_SUPPORTED : Nat := 2 ^ 10

def SPDK_SEGMENT_BIT : Nat := 26

def SPDK_SEGMENT_SIZE : Nat := 2 ^ 26

def SPDK_LOG_ENTRY_ADDRESS_TABLE_LENGTH : Nat := 2 ^ 11

def SPDK_DATA_ADDRESS_TABLE_LENGTH : Nat := 3 * 2 ^ 12

def SPDK_LOG_METADATA_SIZE : Nat := 2 ^ 15

def SPDK_LOG_ADDRESS_SPACE : Nat := 2 ^ (SPDK_SEGMENT_BIT + 11) / 2 ^ 6

def SPDK_NUM_SEGMENTS : Nat := SPDK_LOG_ADDRESS_SPACE / SPDK_NUM_LOGS_SUPPORTED - 256

/-! ### LogEntry (union log_entry of PersistThreads.hpp)

The source declares a union of a 5-field struct (`int64_t ver; uint64_t dlen;
uint64_t ofst; uint64_t hlc_r; uint64_t hlc_l`) with `uint8_t bytes[64]`.
We embed the field view as a structure and the byte view as an explicit
little-endian serializer onto a 64-byte list. -/

structure LogEntryFields where
  ver : Int
  dlen : Nat
  ofst : Nat
  hlc_r : Nat
  hlc_l : Nat
  deriving DecidableEq

/-- Little-endian 8-byte encoding of an unsigned 64-bit value. -/
def le64 (n : Nat) : List Nat :=
  [n % 2 ^ 8, n / 2 ^ 8 % 2 ^ 8, n / 2 ^ 16 % 2 ^ 8, n / 2 ^ 24 % 2 ^ 8,
   n / 2 ^ 32 % 2 ^ 8, n / 2 ^ 40 % 2 ^ 8, n / 2 ^ 48 % 2 ^ 8, n / 2 ^ 56 % 2 ^ 8]

/-- Little-endian 8-byte decoding of an unsigned 64-bit value. -/
def de64 : List Nat → Nat
  | [b0, b1, b2, b3, b4, b5, b6, b7] =>
      b0 + b1 * 2 ^ 8 + b2 * 2 ^ 16 + b3 * 2 ^ 24 + b4 * 2 ^ 32 + b5 * 2 ^ 40
        + b6 * 2 ^ 48 + b7 * 2 ^ 56
  | _ => 0

/-- Two's-complement bit pattern of an `int64_t` value. -/
def int64ToBits (v : Int) : Nat := (v % 2 ^ 64).toNat

/-- Signed value of an `int64_t` bit pattern. -/
def bitsToInt64 (n : Nat) : Int := if n < 2 ^ 63 then (n : Int) else (n : Int) - 2 ^ 64

/-- Byte view of a `LogEntry`: the five 8-byte fields at offsets 0, 8, 16, 24
and 32, padded with zero bytes to the declared `bytes[64]` size. -/
def serializeLogEntry (e : LogEntryFields) : List Nat :=
  le64 (int64ToBits e.ver) ++ le64 e.dlen ++ le64 e.ofst ++ le64 e.hlc_r ++ le64 e.hlc_l
    ++ List.replicate 24 0

/-- Field view recovered from the byte view of a `LogEntry`. -/
def deserializeLogEntry (bs : List Nat) : LogEntryFields :=
  { ver := bitsToInt64 (de64 (bs.take 8))
    dlen := de64 ((bs.drop 8).take 8)
    ofst := de64 ((bs.drop 16).take 8)
    hlc_r := de64 ((bs.drop 24).take 8)
    hlc_l := de64 ((bs.drop 32).take 8) }

theorem de64_le64 (n : Nat) (h : n < 2 ^ 64) : de64 (le64 n) = n := by
  simp only [le64, de64]
  omega

theorem bitsToInt64_int64ToBits (v : Int) (h1 : -(2 ^ 63) ≤ v) (h2 : v < 2 ^ 63) :
    bitsToInt64 (int64ToBits v) = v := by
  simp only [int64ToBits, bitsToInt64]
  split <;> omega

theorem int64ToBits_lt (v : Int) : int64ToBits v < 2 ^ 64 := by
  simp only [int64ToBits]
  omega

/-! ### PTLogMetadataInfo and LogMetadata (PersistThreads.hpp) -/

/-- Info part of a log metadata entry: `name (uint8_t[256]), id (uint32_t),
head (int64_t), tail (int64_t), ver (int64_t), inuse (bool)`. -/
structure PTLogMetadataInfo where
  name : String
  id : Nat
  head : Int
  tail : Int
  ver : Int
  inuse : Bool
  deriving DecidableEq

/-- Per-log metadata handed to the caller; in the source it holds a pointer
to the `PTLogMetadataInfo`, embedded here by value. -/
structure LogMetadata where
  persist_metadata_info : PTLogMetadataInfo
  deriving DecidableEq

/-- `LogMetadata::operator==` of the source: compares `head`, `tail` and
`ver` of the two `persist_metadata_info` records and nothing else. -/
def LogMetadata.beq (a b : LogMetadata) : Bool :=
  (a.persist_metadata_info.head == b.persist_metadata_info.head)
    && (a.persist_metadata_info.tail == b.persist_metadata_info.tail)
    && (a.persist_metadata_info.ver == b.persist_metadata_info.ver)

/-! ### uint16_t truncation for address-table entries

Both per-log address tables (`segment_log_entry_at_table`,
`segment_data_at_table`) store physical segment ids as `uint16_t`; storing a
wider value truncates it modulo `2 ^ 16`. -/

/-- Value actually stored when a segment id is written into a `uint16_t`
address-table cell. -/
def uint16_store (n : Nat) : Nat := n % 2 ^ 16

/-! ### Claim theorems on constants and record layout -/

/-- C7 counterexample: the claim says every log's virtual address space is
1 TB, but the code constant `SPDK_LOG_ADDRESS_SPACE` is `2 ^ 31`, which is
not `2 ^ 40` (1 TB in bytes) and, scaled by the 64-byte log-entry size,
is `2 ^ 37` bytes (128 GB), not 1 TB either. -/
theorem C7_log_address_space_not_1TB :
    SPDK_LOG_ADDRESS_SPACE ≠ 2 ^ 40 ∧ SPDK_LOG_ADDRESS_SPACE * 64 ≠ 2 ^ 40 := by
  constructor <;> decide

/-- C7 (amended): physical segments are 64 MB (`2 ^ 26` bytes) each; the
per-log address-space constant is `2 ^ (SPDK_SEGMENT_BIT + 11) / 2 ^ 6 = 2 ^ 31`
(despite the source comment calling it 1 TB); the number of usable segments
is that constant divided by the maximum number of logs, minus the 256
reserved, i.e. `2 ^ 21 - 256`; and the combined per-log virtual capacity of
the two address tables is 896 GB, not 1 TB. -/
theorem C7_geometry_constants :
    SPDK_SEGMENT_SIZE = 2 ^ 26 ∧
    SPDK_LOG_ADDRESS_SPACE = 2 ^ 31 ∧
    SPDK_NUM_SEGMENTS = SPDK_LOG_ADDRESS_SPACE / SPDK_NUM_LOGS_SUPPORTED - 256 ∧
    SPDK_NUM_SEGMENTS = 2 ^ 21 - 256 ∧
    (SPDK_LOG_ENTRY_ADDRESS_TABLE_LENGTH + SPDK_DATA_ADDRESS_TABLE_LENGTH)
      * SPDK_SEGMENT_SIZE = 896 * 2 ^ 30 :=
  ⟨rfl, by decide, rfl, by decide, by decide⟩

/-- C8: a `LogEntry` is a fixed 64-byte record holding exactly a signed
64-bit version, an unsigned 64-bit data length, an unsigned 64-bit data
offset and the two unsigned 64-bit hybrid-clock components: its byte view
is 64 bytes long, and the five fields are recovered exactly from the bytes
whenever they are in 64-bit range. -/
theorem C8_logEntry_layout (e : LogEntryFields)
    (hv1 : -(2 ^ 63) ≤ e.ver) (hv2 : e.ver < 2 ^ 63)
    (hd : e.dlen < 2 ^ 64) (ho : e.ofst < 2 ^ 64)
    (hr : e.hlc_r < 2 ^ 64) (hl : e.hlc_l < 2 ^ 64) :
    (serializeLogEntry e).length = 64 ∧
      deserializeLogEntry (serializeLogEntry e) = e := by
  refine ⟨rfl, ?_⟩
  have h1 : (serializeLogEntry e).take 8 = le64 (int64ToBits e.ver) := rfl
  have h2 : ((serializeLogEntry e).drop 8).take 8 = le64 e.dlen := rfl
  have h3 : ((serializeLogEntry e).drop 16).take 8 = le64 e.ofst := rfl
  have h4 : ((serializeLogEntry e).drop 24).take 8 = le64 e.hlc_r := rfl
  have h5 : ((serializeLogEntry e).drop 32).take 8 = le64 e.hlc_l := rfl
  simp only [deserializeLogEntry, h1, h2, h3, h4, h5, de64_le64 _ hd, de64_le64 _ ho,
    de64_le64 _ hr, de64_le64 _ hl, de64_le64 _ (int64ToBits_lt e.ver),
    bitsToInt64_int64ToBits _ hv1 hv2]

/-- Witness for C8 at the concrete entry (ver 1, dlen 5, ofst 0, hlc 2/3). -/
theorem C8_logEntry_layout_witness :
    (serializeLogEntry ⟨1, 5, 0, 2, 3⟩).length = 64 ∧
      deserializeLogEntry (serializeLogEntry ⟨1, 5, 0, 2, 3⟩) = ⟨1, 5, 0, 2, 3⟩ :=
  C8_logEntry_layout ⟨1, 5, 0, 2, 3⟩ (by decide) (by decide) (by decide) (by decide)
    (by decide) (by decide)

/-- C9: address-table cells are `uint16_t`, so they range over fewer than
`2 ^ 16` values, while the segment-usage bitset tracks
`SPDK_NUM_SEGMENTS = 2 ^ 21 - 256 > 2 ^ 16` segments; a valid segment id at
`2 ^ 16` cannot be stored without truncation. -/
theorem C9_segment_id_truncation :
    SPDK_NUM_SEGMENTS = 2 ^ 21 - 256 ∧
    2 ^ 16 < SPDK_NUM_SEGMENTS ∧
    (∀ n : Nat, uint16_store n < 2 ^ 16) ∧
    ∃ id, id < SPDK_NUM_SEGMENTS ∧ uint16_store id ≠ id :=
  ⟨by decide, by decide, fun n => Nat.mod_lt n (by norm_num),
    ⟨2 ^ 16, by decide, by decide⟩⟩

/-- C10: `LogMetadata::operator==` returns true exactly when the `head`,
`tail` and `ver` fields agree, and the `name`, `id` and `inuse` fields of
the underlying info record have no effect on it. -/
theorem C10_logMetadata_beq_spec (a b : LogMetadata) :
    (LogMetadata.beq a b = true ↔
      a.persist_metadata_info.head = b.persist_metadata_info.head ∧
      a.persist_metadata_info.tail = b.persist_metadata_info.tail ∧
      a.persist_metadata_info.ver = b.persist_metadata_info.ver) ∧
    ∀ (nm : String) (i : Nat) (u : Bool),
      LogMetadata.beq ⟨{ a.persist_metadata_info with name := nm, id := i, inuse := u }⟩ b
        = LogMetadata.beq a b := by
  constructor
  · simp [LogMetadata.beq, and_assoc]
  · intro nm i u
    rfl

/-! ### List helper lemmas -/

theorem getD_set_self {α : Type} (l : List α) (i : Nat) (a d : α) (h : i < l.length) :
    (l.set i a).getD i d = a := by
  simp [List.getD_eq_getElem?_getD, List.getElem?_set_self h]

theorem getD_set_ne {α : Type} (l : List α) (i j : Nat) (a d : α) (h : i ≠ j) :
    (l.set i a).getD j d = l.getD j d := by
  simp [List.getD_eq_getElem?_getD, List.getElem?_set_ne h]

theorem getD_mem {α : Type} (l : List α) (i : Nat) (d : α) (h : i < l.length) :
    l.getD i d ∈ l := by
  rw [List.getD_eq_getElem?_getD, List.getElem?_eq_getElem h]
  exact List.getElem_mem h

/-! ### Metadata store (spec-modelled)

The bodies of `load` and of the metadata worker live in the repository's
`.cpp` file, which is not under `src/`; only their declarations are. The
operations below are modelled from the spec. -/

/-- A metadata slot that has never been assigned: all fields zero,
`inuse = false`. -/
def blankInfo : PTLogMetadataInfo :=
  { name := "", id := 0, head := 0, tail := 0, ver := 0, inuse := false }

/-- In-memory view of the global metadata array (`global_metadata`, one slot
per supported log) together with the `log_name_to_id` map. The map is
embedded as an association list with most-recent binding first. -/
structure MetadataStore where
  slots : List PTLogMetadataInfo
  log_name_to_id : List (String × Nat)
  deriving DecidableEq

/-- Modelled from the spec: the slot-assignment scan of §4.3 — find the
first metadata entry with `in_use = false`. -/
def findFreeSlot : List PTLogMetadataInfo → Option Nat
  | [] => none
  | s :: rest => if s.inuse = false then some 0 else (findFreeSlot rest).map (· + 1)

/-- Modelled from the spec: `assign_slot(name)` of §4.3 (the slot-assignment
step of `load`, whose body is in the missing `.cpp`): first look the name up
in `log_name_to_id`; if absent, find an entry with `in_use = false`, mark it
in use, record the name, and register the name-to-id binding — all under the
entry-assignment lock, embedded here as a sequential step. Returns `none`
when all slots are occupied. -/
def assign_slot (st : MetadataStore) (name : String) : Option (Nat × MetadataStore) :=
  match st.log_name_to_id.lookup name with
  | some id => some (id, st)
  | none =>
    match findFreeSlot st.slots with
    | none => none
    | some i =>
        let old := st.slots.getD i blankInfo
        some (i, { slots := st.slots.set i { old with name := name, id := i, inuse := true }
                   log_name_to_id := (name, i) :: st.log_name_to_id })

/-- Modelled from the spec: the metadata worker applies a committed snapshot
to the in-memory global metadata only after its device write completes, and
the per-log staging (`to_write_metadata`, holding the highest version) plus
the per-log processing lock prevent version regression — so a snapshot is
applied only when its version exceeds the slot's current version. -/
def metadata_commit (st : MetadataStore) (id : Nat) (m : PTLogMetadataInfo) :
    MetadataStore :=
  if (st.slots.getD id blankInfo).ver < m.ver then
    { st with slots := st.slots.set id m }
  else st

theorem findFreeSlot_spec (l : List PTLogMetadataInfo) (i : Nat)
    (h : findFreeSlot l = some i) :
    i < l.length ∧ (l.getD i blankInfo).inuse = false := by
  induction l generalizing i with
  | nil => cases h
  | cons s rest ih =>
      unfold findFreeSlot at h
      by_cases hs : s.inuse = false
      · rw [if_pos hs] at h
        cases h
        simpa using hs
      · rw [if_neg hs] at h
        simp only [Option.map_eq_some'] at h
        obtain ⟨j, hj, rfl⟩ := h
        obtain ⟨hlen, hfree⟩ := ih j hj
        refine ⟨by simpa using Nat.succ_lt_succ hlen, ?_⟩
        simpa using hfree

/-- C3: slot assignment is idempotent per name — if `assign_slot` returns
slot `id` and state `st'` for a name, calling it again on `st'` with the
same name returns the same `id` and leaves the state unchanged (no second
slot is ever assigned for the name). -/
theorem C3_assign_slot_idempotent (st : MetadataStore) (name : String) (id : Nat)
    (st' : MetadataStore) (h : assign_slot st name = some (id, st')) :
    assign_slot st' name = some (id, st') := by
  unfold assign_slot at h ⊢
  cases hl : st.log_name_to_id.lookup name with
  | some id0 =>
      rw [hl] at h
      simp only [Option.some.injEq, Prod.mk.injEq] at h
      obtain ⟨rfl, rfl⟩ := h
      rw [hl]
  | none =>
      rw [hl] at h
      cases hf : findFreeSlot st.slots with
      | none => rw [hf] at h; cases h
      | some i =>
          rw [hf] at h
          simp only [Option.some.injEq, Prod.mk.injEq] at h
          obtain ⟨rfl, rfl⟩ := h
          simp [List.lookup_cons_self]

/-- Concrete one-slot store before any assignment. -/
def storeBefore : MetadataStore := { slots := [blankInfo], log_name_to_id := [] }

/-- Concrete one-slot store after assigning the name "A" to slot 0. -/
def storeAfterA : MetadataStore :=
  { slots := [{ blankInfo with name := "A", id := 0, inuse := true }]
    log_name_to_id := [("A", 0)] }

/-- Witness for C3: assigning "A" in the one-slot store yields slot 0, and a
second assignment of "A" returns the same slot and the same state. -/
theorem C3_assign_slot_idempotent_witness :
    assign_slot storeBefore "A" = some (0, storeAfterA) ∧
      assign_slot storeAfterA "A" = some (0, storeAfterA) :=
  ⟨by decide, C3_assign_slot_idempotent storeBefore "A" 0 storeAfterA (by decide)⟩

/-! ### Metadata store invariants (C2) -/

/-- Well-formedness of the metadata store: every slot has `head ≤ tail`;
every in-use slot's name is registered in `log_name_to_id`; and at most one
slot per distinct name is in use (two in-use slots with the same name are
the same slot). -/
def WFStore (st : MetadataStore) : Prop :=
  (∀ s ∈ st.slots, s.head ≤ s.tail) ∧
  (∀ i, i < st.slots.length → (st.slots.getD i blankInfo).inuse = true →
      st.log_name_to_id.lookup (st.slots.getD i blankInfo).name ≠ none) ∧
  (∀ i, i < st.slots.length → ∀ j, j < st.slots.length →
      (st.slots.getD i blankInfo).inuse = true →
      (st.slots.getD j blankInfo).inuse = true →
      (st.slots.getD i blankInfo).name = (st.slots.getD j blankInfo).name → i = j)

theorem assign_slot_WF (st : MetadataStore) (nm : String) (id1 : Nat)
    (st1 : MetadataStore) (hwf : WFStore st)
    (h : assign_slot st nm = some (id1, st1)) : WFStore st1 := by
  obtain ⟨hht, hcp, hun⟩ := hwf
  unfold assign_slot at h
  cases hl : st.log_name_to_id.lookup nm with
  | some id0 =>
      rw [hl] at h
      simp only [Option.some.injEq, Prod.mk.injEq] at h
      obtain ⟨rfl, rfl⟩ := h
      exact ⟨hht, hcp, hun⟩
  | none =>
      rw [hl] at h
      cases hf : findFreeSlot st.slots with
      | none => rw [hf] at h; cases h
      | some i =>
          rw [hf] at h
          simp only [Option.some.injEq, Prod.mk.injEq] at h
          obtain ⟨rfl, rfl⟩ := h
          obtain ⟨hilen, hifree⟩ := findFreeSlot_spec st.slots i hf
          refine ⟨?_, ?_, ?_⟩
          · intro s hs
            rcases List.mem_or_eq_of_mem_set hs with hmem | rfl
            · exact hht s hmem
            · have hold := hht (st.slots.getD i blankInfo)
                (getD_mem st.slots i blankInfo hilen)
              simpa using hold
          · intro j hj hin
            simp only [List.length_set] at hj
            by_cases hji : j = i
            · subst hji
              rw [getD_set_self st.slots j _ blankInfo hilen]
              simp [List.lookup_cons_self]
            · rw [getD_set_ne st.slots i j _ blankInfo (Ne.symm hji)] at hin ⊢
              have hold := hcp j hj hin
              rw [List.lookup_cons]
              cases hb : ((st.slots.getD j blankInfo).name == nm)
              · simpa using hold
              · simp
          · intro j hj k hk hinj hink hname
            simp only [List.length_set] at hj hk
            by_cases hji : j = i <;> by_cases hki : k = i
            · rw [hji, hki]
            · exfalso
              subst hji
              rw [getD_set_self st.slots j _ blankInfo hilen] at hname
              rw [getD_set_ne st.slots j k _ blankInfo (fun hc => hki hc.symm)] at hname hink
              have hold := hcp k hk hink
              rw [← hname] at hold
              exact hold hl
            · exfalso
              subst hki
              rw [getD_set_self st.slots k _ blankInfo hilen] at hname
              rw [getD_set_ne st.slots k j _ blankInfo (fun hc => hji hc.symm)] at hname hinj
              have hold := hcp j hj hinj
              rw [hname] at hold
              exact hold hl
            · rw [getD_set_ne st.slots i j _ blankInfo (Ne.symm hji)] at hinj hname
              rw [getD_set_ne st.slots i k _ blankInfo (Ne.symm hki)] at hink hname
              exact hun j hj k hk hinj hink hname

theorem metadata_commit_WF (st : MetadataStore) (id : Nat) (m : PTLogMetadataInfo)
    (hid : id < st.slots.length) (hwf : WFStore st) (hht : m.head ≤ m.tail)
    (hnm : m.name = (st.slots.getD id blankInfo).name)
    (hiu : m.inuse = (st.slots.getD id blankInfo).inuse) :
    WFStore (metadata_commit st id m) := by
  obtain ⟨h1, h2, h3⟩ := hwf
  unfold metadata_commit
  split
  · refine ⟨?_, ?_, ?_⟩
    · intro s hs
      simp only at hs
      rcases List.mem_or_eq_of_mem_set hs with hmem | rfl
      · exact h1 s hmem
      · exact hht
    · intro j hj hin
      simp only [List.length_set] at hj
      simp only at hin ⊢
      by_cases hji : j = id
      · subst hji
        rw [getD_set_self st.slots j m blankInfo hid] at hin ⊢
        rw [hnm]
        exact h2 j hj (hiu ▸ hin)
      · rw [getD_set_ne st.slots id j m blankInfo (Ne.symm hji)] at hin ⊢
        exact h2 j hj hin
    · intro j hj k hk hinj hink hname
      simp only [List.length_set] at hj hk
      simp only at hinj hink hname
      have hjn : (st.slots.set id m).getD j blankInfo = if j = id then m
          else st.slots.getD j blankInfo := by
        by_cases hji : j = id
        · subst hji; rw [if_pos rfl, getD_set_self st.slots j m blankInfo hid]
        · rw [if_neg hji, getD_set_ne st.slots id j m blankInfo (Ne.symm hji)]
      have hkn : (st.slots.set id m).getD k blankInfo = if k = id then m
          else st.slots.getD k blankInfo := by
        by_cases hki : k = id
        · subst hki; rw [if_pos rfl, getD_set_self st.slots k m blankInfo hid]
        · rw [if_neg hki, getD_set_ne st.slots id k m blankInfo (Ne.symm hki)]
      rw [hjn] at hinj hname
      rw [hkn] at hink hname
      by_cases hji : j = id <;> by_cases hki : k = id
      · rw [hji, hki]
      · exfalso
        rw [if_pos hji] at hinj hname
        rw [if_neg hki] at hink hname
        apply hki
        refine h3 k hk id hid hink ?_ ?_
        · rw [← hiu]; exact hinj
        · rw [← hname, hnm]
      · rw [if_neg hji] at hinj hname
        rw [if_pos hki] at hink hname
        rw [hki]
        refine h3 j hj id hid hinj ?_ ?_
        · rw [← hiu]; exact hink
        · rw [hname, hnm]
      · rw [if_neg hji] at hinj hname
        rw [if_neg hki] at hink hname
        exact h3 j hj k hk hinj hink hname
  · exact ⟨h1, h2, h3⟩

theorem metadata_commit_ver_mono (st : MetadataStore) (id : Nat)
    (m : PTLogMetadataInfo) (hid : id < st.slots.length) :
    (st.slots.getD id blankInfo).ver ≤
      ((metadata_commit st id m).slots.getD id blankInfo).ver := by
  unfold metadata_commit
  split
  · next hlt =>
      simp only
      rw [getD_set_self st.slots id m blankInfo hid]
      exact le_of_lt hlt
  · exact le_refl _

theorem metadata_commit_applies (st : MetadataStore) (id : Nat)
    (m : PTLogMetadataInfo) (hid : id < st.slots.length)
    (hlt : (st.slots.getD id blankInfo).ver < m.ver) :
    (metadata_commit st id m).slots.getD id blankInfo = m := by
  unfold metadata_commit
  rw [if_pos hlt]
  simp only
  exact getD_set_self st.slots id m blankInfo hid

/-- One abstract metadata-store operation: a slot assignment (part of
`load`) or the commit of an append's metadata snapshot. -/
inductive StoreOp where
  | assign (name : String)
  | commit (id : Nat) (m : PTLogMetadataInfo)
  deriving DecidableEq

/-- Effect of one operation on the in-memory metadata store (a failed
assignment, all slots occupied, leaves the store unchanged). -/
def applyOp (st : MetadataStore) : StoreOp → MetadataStore
  | StoreOp.assign nm =>
      match assign_slot st nm with
      | some (_, st') => st'
      | none => st
  | StoreOp.commit id m => metadata_commit st id m

/-- Effect of a sequence of metadata-store operations. -/
def applyOps (st : MetadataStore) (ops : List StoreOp) : MetadataStore :=
  ops.foldl applyOp st

theorem assign_slot_ver_eq (st : MetadataStore) (nm : String) (i : Nat)
    (st' : MetadataStore) (h : assign_slot st nm = some (i, st')) (k : Nat) :
    (st'.slots.getD k blankInfo).ver = (st.slots.getD k blankInfo).ver := by
  unfold assign_slot at h
  cases hl : st.log_name_to_id.lookup nm with
  | some id0 =>
      rw [hl] at h
      simp only [Option.some.injEq, Prod.mk.injEq] at h
      rw [← h.2]
  | none =>
      rw [hl] at h
      cases hf : findFreeSlot st.slots with
      | none => rw [hf] at h; cases h
      | some i0 =>
          rw [hf] at h
          simp only [Option.some.injEq, Prod.mk.injEq] at h
          obtain ⟨hlen, -⟩ := findFreeSlot_spec st.slots i0 hf
          rw [← h.2]
          by_cases hki : k = i0
          · subst hki
            rw [getD_set_self st.slots k _ blankInfo hlen]
          · rw [getD_set_ne st.slots i0 k _ blankInfo (Ne.symm hki)]

theorem applyOp_ver_mono (st : MetadataStore) (op : StoreOp) (k : Nat) :
    (st.slots.getD k blankInfo).ver ≤ ((applyOp st op).slots.getD k blankInfo).ver := by
  cases op with
  | assign nm =>
      simp only [applyOp]
      cases ha : assign_slot st nm with
      | none => exact le_refl _
      | some p =>
          rw [assign_slot_ver_eq st nm p.1 p.2 (by rw [ha]) k]
  | commit id0 m =>
      simp only [applyOp]
      unfold metadata_commit
      split
      · next hlt =>
          simp only
          by_cases hlen : id0 < st.slots.length
          · by_cases hki : k = id0
            · subst hki
              rw [getD_set_self st.slots k m blankInfo hlen]
              exact le_of_lt hlt
            · rw [getD_set_ne st.slots id0 k m blankInfo (Ne.symm hki)]
          · rw [List.set_eq_of_length_le (Nat.le_of_not_lt hlen)]
      · exact le_refl _

theorem applyOps_ver_mono (ops : List StoreOp) (st : MetadataStore) (k : Nat) :
    (st.slots.getD k blankInfo).ver ≤
      ((applyOps st ops).slots.getD k blankInfo).ver := by
  induction ops generalizing st with
  | nil => exact le_refl _
  | cons op rest ih =>
      exact le_trans (applyOp_ver_mono st op k) (ih (applyOp st op))

/-- C2: for every log, the metadata invariants hold across operations —
slot assignment preserves well-formedness (`head ≤ tail` everywhere, at
most one in-use slot per distinct name); committing an append's metadata
snapshot preserves well-formedness, never decreases the slot's version, and
makes a subsequent load of the slot return exactly the last acknowledged
snapshot (hence its version); and across any sequence of operations no
log's version ever decreases. -/
theorem C2_metadata_invariants (st : MetadataStore) (hwf : WFStore st) :
    (∀ nm id1 st1, assign_slot st nm = some (id1, st1) → WFStore st1) ∧
    (∀ id m, id < st.slots.length → m.head ≤ m.tail →
      m.name = (st.slots.getD id blankInfo).name →
      m.inuse = (st.slots.getD id blankInfo).inuse →
      WFStore (metadata_commit st id m) ∧
      (st.slots.getD id blankInfo).ver ≤
        ((metadata_commit st id m).slots.getD id blankInfo).ver ∧
      ((st.slots.getD id blankInfo).ver < m.ver →
        (metadata_commit st id m).slots.getD id blankInfo = m)) ∧
    (∀ ops k, (st.slots.getD k blankInfo).ver ≤
      ((applyOps st ops).slots.getD k blankInfo).ver) :=
  ⟨fun nm id1 st1 h => assign_slot_WF st nm id1 st1 hwf h,
   fun id m hid hht hnm hiu =>
     ⟨metadata_commit_WF st id m hid hwf hht hnm hiu,
      metadata_commit_ver_mono st id m hid,
      fun hlt => metadata_commit_applies st id m hid hlt⟩,
   fun ops k => applyOps_ver_mono ops st k⟩

/-- Snapshot committed by an acknowledged append on log "A": tail 1,
version 1. -/
def commitSnapA : PTLogMetadataInfo :=
  { name := "A", id := 0, head := 0, tail := 1, ver := 1, inuse := true }

/-- Witness for C2: committing the version-1 snapshot on the concrete
one-slot store keeps it well-formed, does not decrease the version, and
installs exactly the committed snapshot. -/
theorem C2_metadata_invariants_witness :
    WFStore (metadata_commit storeAfterA 0 commitSnapA) ∧
      (storeAfterA.slots.getD 0 blankInfo).ver ≤
        ((metadata_commit storeAfterA 0 commitSnapA).slots.getD 0 blankInfo).ver ∧
      ((storeAfterA.slots.getD 0 blankInfo).ver < commitSnapA.ver →
        (metadata_commit storeAfterA 0 commitSnapA).slots.getD 0 blankInfo = commitSnapA) :=
  (C2_metadata_invariants storeAfterA (by unfold WFStore; decide)).2.1 0 commitSnapA
    (by decide) (by decide) (by decide) (by decide)

/-! ### Segment allocator (spec-modelled, C4) -/

/-- Modelled from the spec: scan of the segment-usage bitset
(`segment_usage_table`, `std::bitset<SPDK_NUM_SEGMENTS>`) for the first
clear bit. -/
def firstClearBit : List Bool → Option Nat
  | [] => none
  | b :: rest => if b = false then some 0 else (firstClearBit rest).map (· + 1)

/-- Modelled from the spec: `allocate_segment` of §4.2, whose body is in the
repository's missing `.cpp` file: under `segment_assignment_lock`, scan the
usage bitset for the first clear bit, set it and return its index; when no
clear bit exists the call fails (`none`) — the device is full. The lock
serializes concurrent calls, so the operation is embedded as a sequential
step on the bitset state. -/
def allocate_segment (bits : List Bool) : Option (Nat × List Bool) :=
  match firstClearBit bits with
  | none => none
  | some i => some (i, bits.set i true)

theorem firstClearBit_spec (l : List Bool) (i : Nat) (h : firstClearBit l = some i) :
    i < l.length ∧ l.getD i true = false := by
  induction l generalizing i with
  | nil => cases h
  | cons b rest ih =>
      unfold firstClearBit at h
      by_cases hb : b = false
      · rw [if_pos hb] at h
        cases h
        simpa using hb
      · rw [if_neg hb] at h
        simp only [Option.map_eq_some'] at h
        obtain ⟨j, hj, rfl⟩ := h
        obtain ⟨hlen, hclear⟩ := ih j hj
        exact ⟨by simpa using Nat.succ_lt_succ hlen, by simpa using hclear⟩

/-- C4: `allocate_segment` hands out the first clear bit of the usage bitset
and sets it, so a subsequent allocation (the serialization of any concurrent
call under the allocation lock) never returns the same segment id; and when
no clear bit exists the call fails instead of returning a segment. -/
theorem C4_allocate_segment_spec (bits : List Bool) :
    (∀ i bits', allocate_segment bits = some (i, bits') →
      i < bits.length ∧ bits.getD i true = false ∧ bits' = bits.set i true ∧
      ∀ j bits2, allocate_segment bits' = some (j, bits2) → j ≠ i) ∧
    ((∀ b ∈ bits, b = true) → allocate_segment bits = none) := by
  constructor
  · intro i bits' h
    unfold allocate_segment at h
    cases hf : firstClearBit bits with
    | none => rw [hf] at h; cases h
    | some i0 =>
        rw [hf] at h
        simp only [Option.some.injEq, Prod.mk.injEq] at h
        obtain ⟨rfl, rfl⟩ := h
        obtain ⟨hlen, hclear⟩ := firstClearBit_spec bits i0 hf
        refine ⟨hlen, hclear, rfl, ?_⟩
        intro j bits2 h2
        unfold allocate_segment at h2
        cases hf2 : firstClearBit (bits.set i0 true) with
        | none => rw [hf2] at h2; cases h2
        | some j0 =>
            rw [hf2] at h2
            simp only [Option.some.injEq, Prod.mk.injEq] at h2
            obtain ⟨rfl, -⟩ := h2
            obtain ⟨hlen2, hclear2⟩ := firstClearBit_spec _ j0 hf2
            intro hji
            subst hji
            rw [getD_set_self bits j0 true true hlen] at hclear2
            cases hclear2
  · intro hall
    unfold allocate_segment
    cases hf : firstClearBit bits with
    | none => rfl
    | some i =>
        obtain ⟨hlen, hclear⟩ := firstClearBit_spec bits i hf
        have hb := hall _ (getD_mem bits i true hlen)
        rw [hb] at hclear
        cases hclear

/-- Witness for C4: on the two-segment bitset with both bits clear, the
allocator returns segment 0 and sets its bit, a second allocation returns a
different id, and on a fully-set bitset it fails. -/
theorem C4_allocate_segment_witness :
    (0 < [false, false].length ∧ [false, false].getD 0 true = false ∧
      [true, false] = [false, false].set 0 true ∧
      ∀ j bits2, allocate_segment [true, false] = some (j, bits2) → j ≠ 0) ∧
    allocate_segment [true] = none :=
  ⟨(C4_allocate_segment_spec [false, false]).1 0 [true, false] (by decide),
   (C4_allocate_segment_spec [true]).2 (by decide)⟩

/-! ### Device address translator (spec-modelled, C5) -/

/-- Modelled from the spec: the §4.1/§4.4 virtual-to-physical translation
for the per-log log-entry space, whose code is in the missing `.cpp`: the
virtual offset is split into a segment index (division by
`SPDK_SEGMENT_SIZE`) and an offset within the segment; a segment index at
or beyond the fixed table length `SPDK_LOG_ENTRY_ADDRESS_TABLE_LENGTH` is a
capacity error, fatal for the log; within range, the physical address is
the table's physical segment id times the segment size plus the offset
within the segment. -/
def translateLogEntryAddr (at_table : List Nat) (virtaddress : Nat) :
    Except String Nat :=
  if virtaddress / SPDK_SEGMENT_SIZE < SPDK_LOG_ENTRY_ADDRESS_TABLE_LENGTH then
    Except.ok (at_table.getD (virtaddress / SPDK_SEGMENT_SIZE) 0 * SPDK_SEGMENT_SIZE
      + virtaddress % SPDK_SEGMENT_SIZE)
  else Except.error "capacity"

/-- Modelled from the spec: same translation for the per-log data space,
bounded by `SPDK_DATA_ADDRESS_TABLE_LENGTH`. -/
def translateDataAddr (at_table : List Nat) (virtaddress : Nat) :
    Except String Nat :=
  if virtaddress / SPDK_SEGMENT_SIZE < SPDK_DATA_ADDRESS_TABLE_LENGTH then
    Except.ok (at_table.getD (virtaddress / SPDK_SEGMENT_SIZE) 0 * SPDK_SEGMENT_SIZE
      + virtaddress % SPDK_SEGMENT_SIZE)
  else Except.error "capacity"

/-- C5: a virtual offset whose segment index lies beyond the fixed length of
the log's address table fails deterministically with a capacity error — it
is never an `ok` result, so in particular it never wraps into segment 0.
Both the log-entry table and the data table are covered. -/
theorem C5_capacity_error (at_log at_data : List Nat) (v w : Nat)
    (hv : SPDK_LOG_ENTRY_ADDRESS_TABLE_LENGTH * SPDK_SEGMENT_SIZE ≤ v)
    (hw : SPDK_DATA_ADDRESS_TABLE_LENGTH * SPDK_SEGMENT_SIZE ≤ w) :
    translateLogEntryAddr at_log v = Except.error "capacity" ∧
      (∀ pa, translateLogEntryAddr at_log v ≠ Except.ok pa) ∧
      translateDataAddr at_data w = Except.error "capacity" ∧
      ∀ pa, translateDataAddr at_data w ≠ Except.ok pa := by
  have hv2 : SPDK_LOG_ENTRY_ADDRESS_TABLE_LENGTH ≤ v / SPDK_SEGMENT_SIZE :=
    (Nat.le_div_iff_mul_le (by decide)).2 hv
  have hw2 : SPDK_DATA_ADDRESS_TABLE_LENGTH ≤ w / SPDK_SEGMENT_SIZE :=
    (Nat.le_div_iff_mul_le (by decide)).2 hw
  unfold translateLogEntryAddr translateDataAddr
  rw [if_neg (Nat.not_lt.2 hv2), if_neg (Nat.not_lt.2 hw2)]
  refine ⟨rfl, ?_, rfl, ?_⟩ <;> intro pa hc <;> cases hc

/-- Witness for C5 at the first out-of-range offsets of both spaces. -/
theorem C5_capacity_error_witness :
    translateLogEntryAddr []
        (SPDK_LOG_ENTRY_ADDRESS_TABLE_LENGTH * SPDK_SEGMENT_SIZE)
        = Except.error "capacity" ∧
      (∀ pa, translateLogEntryAddr []
        (SPDK_LOG_ENTRY_ADDRESS_TABLE_LENGTH * SPDK_SEGMENT_SIZE) ≠ Except.ok pa) ∧
      translateDataAddr [] (SPDK_DATA_ADDRESS_TABLE_LENGTH * SPDK_SEGMENT_SIZE)
        = Except.error "capacity" ∧
      ∀ pa, translateDataAddr []
        (SPDK_DATA_ADDRESS_TABLE_LENGTH * SPDK_SEGMENT_SIZE) ≠ Except.ok pa :=
  C5_capacity_error [] [] _ _ (le_refl _) (le_refl _)

/-! ### Append/read round trip (spec-modelled, C6) -/

/-- Modelled from the spec: the durable contents of the device, keyed by
translated physical byte address — log-entry cells and payload-data cells;
a write prepends and a read returns the most recent write at an address. -/
structure DeviceState where
  entryCells : List (Nat × LogEntryFields)
  dataCells : List (Nat × List Nat)
  deriving DecidableEq

/-- Modelled from the spec: `append` (§4.5), whose body is in the missing
`.cpp`: translate the log-entry offset and the data offset through the
per-log address tables and issue the log-entry and payload writes; a
translation capacity error fails the whole operation and writes nothing. -/
def append (dev : DeviceState) (at_log at_data : List Nat)
    (log_offset data_offset : Nat) (entry : LogEntryFields) (data : List Nat) :
    Except String DeviceState :=
  match translateLogEntryAddr at_log log_offset with
  | Except.error e => Except.error e
  | Except.ok pe =>
      match translateDataAddr at_data data_offset with
      | Except.error e => Except.error e
      | Except.ok pd =>
          Except.ok { entryCells := (pe, entry) :: dev.entryCells
                      dataCells := (pd, data) :: dev.dataCells }

/-- Modelled from the spec: `read_entry` (§4.7) translates the log-entry
offset and reads the device at the resulting physical address. -/
def read_entry (dev : DeviceState) (at_log : List Nat) (log_offset : Nat) :
    Except String (Option LogEntryFields) :=
  match translateLogEntryAddr at_log log_offset with
  | Except.ok pe => Except.ok (dev.entryCells.lookup pe)
  | Except.error e => Except.error e

/-- Modelled from the spec: `read_data` (§4.7) translates the data offset
and reads the device at the resulting physical address. -/
def read_data (dev : DeviceState) (at_data : List Nat) (data_offset : Nat) :
    Except String (Option (List Nat)) :=
  match translateDataAddr at_data data_offset with
  | Except.ok pd => Except.ok (dev.dataCells.lookup pd)
  | Except.error e => Except.error e

/-- C6: round-trip — after a successful `append` of a `(data, log_entry)`
pair at a logical index, `read_entry` and `read_data` at the same index
return exactly the appended content. -/
theorem C6_append_read_round_trip (dev dev' : DeviceState)
    (at_log at_data : List Nat) (log_offset data_offset : Nat)
    (entry : LogEntryFields) (data : List Nat)
    (h : append dev at_log at_data log_offset data_offset entry data
      = Except.ok dev') :
    read_entry dev' at_log log_offset = Except.ok (some entry) ∧
      read_data dev' at_data data_offset = Except.ok (some data) := by
  unfold append at h
  cases he : translateLogEntryAddr at_log log_offset with
  | error e =>
      rw [he] at h
      cases h
  | ok pe =>
      rw [he] at h
      cases hd : translateDataAddr at_data data_offset with
      | error e =>
          rw [hd] at h
          cases h
      | ok pd =>
          rw [hd] at h
          simp only [Except.ok.injEq] at h
          subst h
          constructor
          · unfold read_entry
            rw [he]
            simp [List.lookup_cons_self]
          · unfold read_data
            rw [hd]
            simp [List.lookup_cons_self]

/-- Device contents after appending entry (1, 5, 0, 2, 3) at log-entry
offset 0 and the two data bytes at data offset 0, with address tables
mapping virtual segment 0 to physical segments 0 and 1. -/
def devAfterAppend : DeviceState :=
  { entryCells := [(0, ⟨1, 5, 0, 2, 3⟩)], dataCells := [(2 ^ 26, [104, 105])] }

/-- Witness for C6 at a concrete append on the empty device. -/
theorem C6_append_read_round_trip_witness :
    read_entry devAfterAppend [0] 0 = Except.ok (some ⟨1, 5, 0, 2, 3⟩) ∧
      read_data devAfterAppend [1] 0 = Except.ok (some [104, 105]) :=
  C6_append_read_round_trip ⟨[], []⟩ devAfterAppend [0] [1] 0 0 ⟨1, 5, 0, 2, 3⟩
    [104, 105] rfl

/-! ### Atomic write coordinator (spec-modelled, C1) -/

/-- Completion-tracking state of one logical append inside `atomic_w`: the
shared outstanding-count (the distance of `data_write_cbfn_args.completed`
from `num_sub_req`, counted down here), whether some sub-request completion
reported a device error, and whether the metadata write for the log's slot
has been enqueued to the metadata queue. -/
structure CoordState where
  outstanding : Nat
  failed : Bool
  metadataEnqueued : Bool
  deriving DecidableEq

/-- Modelled from the spec: `atomic_w` starts a logical append with the
outstanding-count initialized to the number of sub-requests, no failure,
and the metadata write not yet enqueued. -/
def coordStart (num_sub_req : Nat) : CoordState :=
  { outstanding := num_sub_req, failed := false, metadataEnqueued := false }

/-- Modelled from the spec: one completion callback of an `atomic_w`
sub-request (§4.5, body in the missing `.cpp`). A successful completion
decrements the shared count and, exactly when the count reaches zero with
no prior failure, enqueues the metadata write for the log's slot; a
completion reporting a device error marks the whole operation failed and
never enqueues the metadata write. -/
inductive CoordStep : CoordState → CoordState → Prop
  | ok (s : CoordState) (h : 0 < s.outstanding) (hm : s.metadataEnqueued = false) :
      CoordStep s
        { outstanding := s.outstanding - 1
          failed := s.failed
          metadataEnqueued := decide (s.outstanding - 1 = 0 ∧ s.failed = false) }
  | err (s : CoordState) (h : 0 < s.outstanding) (hm : s.metadataEnqueued = false) :
      CoordStep s
        { outstanding := s.outstanding - 1, failed := true, metadataEnqueued := false }

/-- C1: in every state reachable from the start of a logical append, the
metadata write is enqueued only once every sub-request completion callback
has fired (the outstanding count is zero) and no sub-request reported a
device error — on any partial failure the metadata is never advanced. -/
theorem C1_metadata_enqueued_after_all_sub_requests (n : Nat) (s : CoordState)
    (h : Relation.ReflTransGen CoordStep (coordStart n) s) :
    s.metadataEnqueued = true → s.outstanding = 0 ∧ s.failed = false := by
  induction h with
  | refl => intro hme; cases hme
  | tail hsteps hstep ih =>
      cases hstep with
      | ok h hm =>
          intro hme
          exact of_decide_eq_true hme
      | err h hm =>
          intro hme
          cases hme

/-- Witness for C1: starting with one sub-request, its successful completion
reaches the state with the metadata write enqueued, where the count is zero
and no failure is recorded. -/
theorem C1_metadata_enqueued_witness :
    ({ outstanding := 0, failed := false, metadataEnqueued := true } :
        CoordState).outstanding = 0 ∧
      ({ outstanding := 0, failed := false, metadataEnqueued := true } :
        CoordState).failed = false :=
  C1_metadata_enqueued_after_all_sub_requests 1 ⟨0, false, true⟩
    (Relation.ReflTransGen.single (CoordStep.ok (coordStart 1) (by decide) rfl))
    rfl

end PersistThreads
